import Mathlib

/-!
Verification of the ooJS object-composition library (src/oo.js).

The development shallowly embeds the JavaScript source: objects are ordered
string-keyed property bags, arrays are ordered element lists, functions are
opaque identities.  The merge engine (extend / deepExtend) is modelled by
explicit state passing: the loop state carries the child variable and the
lazily created copy-on-write clone (child_copy), so in-place mutation and
the clone decision are both observable in the result.
-/

/-- JavaScript runtime values, as far as the library inspects them.  Numbers
are modelled as integers (every number the claims exercise is integral). -/
inductive JVal where
  | undef
  | jnull
  | bool (b : Bool)
  | num (n : Int)
  | str (s : String)
  | obj (props : List (String × JVal))
  | arr (elems : List JVal)
  | fn (id : Nat)

mutual

/-- Structural equality of embedded values, modelling JS strict equality.
Strict equality on objects and arrays is reference equality in JS; the model
is tree-shaped, so two values compare equal exactly when they are the same
tree, which coincides with reference equality on the inputs the claims
quantify over (distinct mutable objects are written as distinct trees). -/
def beqJ : JVal → JVal → Bool
  | .undef, .undef => true
  | .jnull, .jnull => true
  | .bool a, .bool b => a == b
  | .num a, .num b => a == b
  | .str a, .str b => a == b
  | .obj a, .obj b => beqP a b
  | .arr a, .arr b => beqE a b
  | .fn a, .fn b => a == b
  | _, _ => false

/-- Equality of property bags, member of the beqJ recursion. -/
def beqP : List (String × JVal) → List (String × JVal) → Bool
  | [], [] => true
  | (k, v) :: r, (k2, v2) :: r2 => k == k2 && beqJ v v2 && beqP r r2
  | _, _ => false

/-- Equality of element lists, member of the beqJ recursion. -/
def beqE : List JVal → List JVal → Bool
  | [], [] => true
  | v :: r, v2 :: r2 => beqJ v v2 && beqE r r2
  | _, _ => false

end

mutual

theorem beqJ_refl : ∀ a : JVal, beqJ a a = true
  | .undef => rfl
  | .jnull => rfl
  | .bool b => by simp [beqJ]
  | .num n => by simp [beqJ]
  | .str s => by simp [beqJ]
  | .obj props => by simp [beqJ, beqP_refl props]
  | .arr elems => by simp [beqJ, beqE_refl elems]
  | .fn id => by simp [beqJ]

theorem beqP_refl : ∀ l : List (String × JVal), beqP l l = true
  | [] => rfl
  | (k, v) :: r => by simp [beqP, beqJ_refl v, beqP_refl r]

theorem beqE_refl : ∀ l : List JVal, beqE l l = true
  | [] => rfl
  | v :: r => by simp [beqE, beqJ_refl v, beqE_refl r]

end

mutual

theorem eq_of_beqJ : ∀ a b : JVal, beqJ a b = true → a = b
  | .undef, .undef, _ => rfl
  | .jnull, .jnull, _ => rfl
  | .bool a, .bool b, h => by simp [beqJ] at h; simp [h]
  | .num a, .num b, h => by simp [beqJ] at h; simp [h]
  | .str a, .str b, h => by simp [beqJ] at h; simp [h]
  | .obj a, .obj b, h => by rw [eq_of_beqP a b (by simpa [beqJ] using h)]
  | .arr a, .arr b, h => by rw [eq_of_beqE a b (by simpa [beqJ] using h)]
  | .fn a, .fn b, h => by simp [beqJ] at h; simp [h]
  | .undef, .jnull, h => by simp [beqJ] at h
  | .undef, .bool _, h => by simp [beqJ] at h

theorem eq_of_beqP : ∀ a b : List (String × JVal), beqP a b = true → a = b
  | [], [], _ => rfl
  | (k, v) :: r, (k2, v2) :: r2, h => by
      simp only [beqP, Bool.and_eq_true, beq_iff_eq] at h
      rw [h.1.1, eq_of_beqJ v v2 h.1.2, eq_of_beqP r r2 h.2]
  | [], _ :: _, h => by simp [beqP] at h
  | _ :: _, [], h => by simp [beqP] at h

theorem eq_of_beqE : ∀ a b : List JVal, beqE a b = true → a = b
  | [], [], _ => rfl
  | v :: r, v2 :: r2, h => by
      simp only [beqE, Bool.and_eq_true] at h
      rw [eq_of_beqJ v v2 h.1, eq_of_beqE r r2 h.2]
  | [], _ :: _, h => by simp [beqE] at h
  | _ :: _, [], h => by simp [beqE] at h

end

instance : DecidableEq JVal := fun a b =>
  decidable_of_iff (beqJ a b = true) ⟨eq_of_beqJ a b, fun h => h ▸ beqJ_refl a⟩

/-- Result of the JavaScript typeof operator on an embedded value. -/
def typeofStr : JVal → String
  | .undef => "undefined"
  | .jnull => "object"
  | .bool _ => "boolean"
  | .num _ => "number"
  | .str _ => "string"
  | .obj _ => "object"
  | .arr _ => "object"
  | .fn _ => "function"

/-- JavaScript truthiness of an embedded value. -/
def truthy : JVal → Bool
  | .undef => false
  | .jnull => false
  | .bool b => b
  | .num n => n != 0
  | .str s => s != ""
  | .obj _ => true
  | .arr _ => true
  | .fn _ => true

/-- Array.isArray on an embedded value. -/
def isArrayV : JVal → Bool
  | .arr _ => true
  | _ => false

/-- First binding of a key in a property bag (JS own-property lookup). -/
def bagFind : List (String × JVal) → String → Option JVal
  | [], _ => none
  | (p, v) :: r, k => if p = k then some v else bagFind r k

/-- Property read on a bag: a missing property reads as undefined. -/
def getBag (b : List (String × JVal)) (k : String) : JVal :=
  (bagFind b k).getD JVal.undef

/-- Property assignment on a bag: update the existing binding in place,
otherwise append (JS insertion-order semantics for string keys). -/
def setBag : List (String × JVal) → String → JVal → List (String × JVal)
  | [], k, v => [(k, v)]
  | (p, w) :: r, k, v => if p = k then (k, v) :: r else (p, w) :: setBag r k v

/-- Property read value[k] on an arbitrary embedded value.  Objects use bag
lookup, arrays and strings use canonical numeric indices (the only keys the
library ever reads on them), every other value reads as undefined. -/
def getProp : JVal → String → JVal
  | .obj props, k => getBag props k
  | .arr es, k =>
      match k.toNat? with
      | some i => (es[i]?).getD JVal.undef
      | none => JVal.undef
  | .str s, k =>
      match k.toNat? with
      | some i =>
          match s.data[i]? with
          | some c => JVal.str c.toString
          | none => JVal.undef
      | none => JVal.undef
  | _, _ => JVal.undef

/-- Property write value[k] = v.  Writes to primitives are silent no-ops
(non-strict mode); array writes at an in-range or one-past-the-end canonical
index update or append (the only array writes the library performs). -/
def setProp : JVal → String → JVal → JVal
  | .obj props, k, v => .obj (setBag props k v)
  | .arr es, k, v =>
      match k.toNat? with
      | some i =>
          if i < es.length then .arr (es.set i v)
          else if i = es.length then .arr (es ++ [v]) else .arr es
      | none => .arr es
  | x, _, _ => x

/-- for-in enumeration of an array: ascending index keys paired with the
elements. -/
def forInIdx : Nat → List JVal → List (String × JVal)
  | _, [] => []
  | i, e :: es => (toString i, e) :: forInIdx (i + 1) es

/-- for-in enumeration of a string: ascending index keys paired with the
one-character strings (JS coerces the primitive to a String object whose
index properties are own and enumerable). -/
def forInChars : Nat → List Char → List (String × JVal)
  | _, [] => []
  | i, c :: cs => (toString i, JVal.str c.toString) :: forInChars (i + 1) cs

/-- Key/value list enumerated by a JS for-in loop over a value.  Plain
objects enumerate their own properties in insertion order (the model assumes
no enumerable inherited properties); arrays and strings enumerate index
keys; null, undefined, numbers, booleans and functions enumerate nothing. -/
def forInProps : JVal → List (String × JVal)
  | .obj props => props
  | .arr es => forInIdx 0 es
  | .str s => forInChars 0 s.data
  | _ => []

/-- Option record taken by extend / deepExtend / inherit.  A missing record
or a missing field reads as undefined, i.e. falsy. -/
structure Options where
  overwrite : Bool := false
  copyOnWrite : Bool := false
  deepExtend : Bool := false
deriving DecidableEq

/-- Loop state of one extend / deepExtend invocation: the child variable and
the lazily created copy-on-write clone (the source's child_copy, oo.js lines
23 and 75). -/
structure MState where
  child : JVal
  child_copy : Option JVal
deriving DecidableEq

/-- Body of the extend loop in the copyOnWrite:false regime, where dst is the
child itself and every mutation threads through it (oo.js lines 26-44 with
options.copyOnWrite falsy). -/
def extendNoCow (child : JVal) (props : List (String × JVal)) (overwrite : Bool) : JVal :=
  props.foldl (fun dst pv =>
    if pv.2 ≠ JVal.undef ∧ pv.2 ≠ getProp dst pv.1 then
      setProp dst pv.1
        (if overwrite = false ∧ getProp dst pv.1 ≠ JVal.undef then getProp dst pv.1 else pv.2)
    else dst) child

/-- Clone creation extend({}, child) with default options (oo.js lines 33
and 87): the defined own properties of child copied into a fresh object. -/
def cloneJS (child : JVal) : JVal :=
  extendNoCow (JVal.obj []) (forInProps child) false

/-- One iteration of the extend loop (oo.js lines 26-44): skip undefined and
identical values; pick dst as the child or the lazily created clone; write
under the overwrite policy. -/
def extendStep (options : Options) (s : MState) (pv : String × JVal) : MState :=
  if pv.2 ≠ JVal.undef ∧ pv.2 ≠ getProp s.child pv.1 then
    if options.copyOnWrite then
      let cc := s.child_copy.getD (cloneJS s.child)
      ⟨s.child,
       some (setProp cc pv.1
         (if options.overwrite = false ∧ getProp cc pv.1 ≠ JVal.undef then getProp cc pv.1
          else pv.2))⟩
    else
      ⟨setProp s.child pv.1
         (if options.overwrite = false ∧ getProp s.child pv.1 ≠ JVal.undef then getProp s.child pv.1
          else pv.2), none⟩
  else s

/-- extend (oo.js lines 20-46) as a state transformer: the final loop state,
recording both the child and the clone if one was created. -/
def extendRun (child parent : JVal) (options : Options) : MState :=
  (forInProps parent).foldl (extendStep options) ⟨child, none⟩

/-- Return value of extend: child_copy || child (oo.js line 45; a created
clone is an object, hence truthy). -/
def extend (child parent : JVal) (options : Options) : JVal :=
  let s := extendRun child parent options
  s.child_copy.getD s.child

/-- Return value of a deepExtend call: child_copy || child (oo.js line 151). -/
def deepResult (s : MState) : JVal :=
  s.child_copy.getD s.child

/-- Fresh instance new parent[prop].constructor() (oo.js line 102).  The
branch only runs for non-null, non-array objects, whose constructor in this
model of plain property bags is Object, so the fresh instance is {}. -/
def newInstance (_v : JVal) : JVal :=
  JVal.obj []

/-- Element list of an array value. -/
def elemsOf : JVal → List JVal
  | .arr es => es
  | _ => []

/-- Destination update of one deepExtend iteration (oo.js lines 95-145),
computed on the chosen dst.  The rec argument is the self-reference
arguments.callee.  In order: recurse for a non-null non-array object parent
value of matching typeof (lines 95-104); for an array parent value, reset a
non-array dst slot that is absent, null or overwritten, then append a deep
clone of every parent element (lines 112-137); otherwise leaf-write under
the overwrite policy (line 141). -/
def deepWrite (rec : JVal → JVal → Options → MState) (options : Options)
    (dst : JVal) (pv : String × JVal) : JVal :=
  if typeofStr pv.2 = "object" ∧ pv.2 ≠ JVal.jnull ∧ isArrayV pv.2 = false
     ∧ typeofStr pv.2 = typeofStr (getProp dst pv.1) then
    let d1 := if truthy (getProp dst pv.1) then getProp dst pv.1 else newInstance pv.2
    setProp dst pv.1 (deepResult (rec d1 pv.2 options))
  else if typeofStr pv.2 = "object" ∧ pv.2 ≠ JVal.jnull ∧ isArrayV pv.2 = true then
    let dst1 :=
      if isArrayV (getProp dst pv.1) = false
         ∧ (getProp dst pv.1 = JVal.undef ∨ getProp dst pv.1 = JVal.jnull
            ∨ options.overwrite = true) then
        setProp dst pv.1 (JVal.arr [])
      else dst
    match getProp dst1 pv.1 with
    | JVal.arr es =>
        setProp dst1 pv.1
          (JVal.arr (es ++ (elemsOf pv.2).map (fun e => deepResult (rec (JVal.obj []) e options))))
    | _ => dst1
  else
    setProp dst pv.1
      (if options.overwrite = false ∧ getProp dst pv.1 ≠ JVal.undef then getProp dst pv.1
       else pv.2)

/-- One iteration of the deepExtend loop (oo.js lines 78-147): skip undefined
and identical values (line 81); pick dst as the child or the lazily created
clone (lines 85-92); update dst with deepWrite. -/
def deepStep (rec : JVal → JVal → Options → MState) (options : Options)
    (s : MState) (pv : String × JVal) : MState :=
  if pv.2 ≠ JVal.undef ∧ pv.2 ≠ getProp s.child pv.1 then
    if options.copyOnWrite then
      ⟨s.child, some (deepWrite rec options (s.child_copy.getD (cloneJS s.child)) pv)⟩
    else ⟨deepWrite rec options s.child pv, none⟩
  else s

/-- deepExtend (oo.js lines 72-153) as a state transformer, indexed by a
recursion budget that only serves Lean termination; the wrapper deepExtendTop
supplies a budget the adequacy lemma below proves sufficient, so the budget
is never exhausted on the runs the theorems talk about. -/
def deepExtendF : Nat → JVal → JVal → Options → MState
  | 0, child, _, _ => ⟨child, none⟩
  | fuel + 1, child, parent, options =>
      (forInProps parent).foldl (deepStep (deepExtendF fuel) options) ⟨child, none⟩

mutual

/-- Nesting depth of a value: an upper bound on the recursion depth of a
deepExtend call whose parent is the value.  Values without enumerable
properties have depth 0; a string has depth 1 (its character properties are
leaves); objects and arrays have depth one more than their deepest member. -/
def depthJ : JVal → Nat
  | .obj props => depthProps props + 1
  | .arr es => depthElems es + 1
  | .str _ => 1
  | _ => 0

/-- Depth of the deepest value in a property bag. -/
def depthProps : List (String × JVal) → Nat
  | [] => 0
  | (_, v) :: r => max (depthJ v) (depthProps r)

/-- Depth of the deepest value in an element list. -/
def depthElems : List JVal → Nat
  | [] => 0
  | e :: r => max (depthJ e) (depthElems r)

end

/-- deepExtend (oo.js lines 72-153): one full invocation on the given child,
parent and options, with a recursion budget that covers the whole parent. -/
def deepExtendTop (child parent : JVal) (options : Options) : MState :=
  deepExtendF (depthJ parent + 1) child parent options

/-- Recursive body of traverse (oo.js lines 206-232).  The index argument is
the explicit third parameter; the fuel argument only serves Lean termination
and is never exhausted on the entry-point runs below (the entry point returns
before any recursive call).  In order: the termination test
path.length === index || !object (line 214, the model drops the !path test
because an embedded path is never null), the recursive call on
object[path[index]] with index incremented (line 222), and the null return
when a non-object is reached before the path is exhausted (line 226). -/
def traverseRec : Nat → JVal → List String → Nat → JVal
  | 0, object, _, _ => object
  | fuel + 1, object, path, index =>
      if path.length = index ∨ truthy object = false then object
      else if typeofStr object = "object" then
        traverseRec fuel (getProp object (path.getD index "undefined")) path (index + 1)
      else JVal.jnull

/-- traverse (oo.js lines 206-232) at its public two-argument entry point:
index is undefined, so line 210 initialises it to path.length before the
termination test runs. -/
def traverse (object : JVal) (path : List String) : JVal :=
  traverseRec (path.length + 1) object path path.length

/-- objectify (oo.js lines 250-291).  The arguments are the object (or array
of objects), the optional path and the constructor (or array of
constructors); the embedding returns the outcome of the call.  The source
pops the last path element into child_selector (line 257), walks the rest of
the path with traverse (lines 269 and 282), reads the current slot value from
the misspelled local parrent_object, and then assigns through parent_object —
an identifier that is declared nowhere — so in JavaScript the assignment on
line 272 (single object) or line 285 (first loop iteration) throws
ReferenceError before any slot is written; the loop over an array of objects
is bounded by constructors.length (line 278), so it only avoids the throw
when there are no constructors to apply. -/
def objectify (objects : JVal) (ast_path : List String) (constructors : JVal) : Except String JVal :=
  let child_selector := (ast_path.getLast?).getD "undefined"
  let rest := ast_path.dropLast
  if isArrayV objects = false then
    let parrent_object := traverse objects rest
    let _current_object := getProp parrent_object child_selector
    Except.error "ReferenceError: parent_object is not defined"
  else
    if (elemsOf constructors).length = 0 then Except.ok objects
    else
      let parrent_object := traverse (getProp objects "0") rest
      let _current_object := getProp parrent_object child_selector
      Except.error "ReferenceError: parent_object is not defined"

/-- Object with a prototype link, as built by inherit: own enumerable
properties plus the own properties of the single prototype object the
library links in (parent.prototype; the chain beyond it is Object.prototype,
which contributes no enumerable or library-visible members). -/
structure ProtoObj where
  own : List (String × JVal)
  chain : List (String × JVal)
deriving DecidableEq

/-- JS property read through the prototype chain: an own property (even one
holding undefined) shadows the chain; otherwise the prototype is consulted;
a miss reads as undefined. -/
def lookupProto (o : ProtoObj) (m : String) : JVal :=
  match bagFind o.own m with
  | some v => v
  | none => (bagFind o.chain m).getD JVal.undef

/-- extend (oo.js lines 26-44) specialised to its call site at line 191:
the dst is the fresh new ctor object, whose property reads walk the
prototype chain, the source is the child's previous prototype, and the
options are overwrite:true, copyOnWrite:false, so the skip test compares
against the chain-aware read and every surviving write stores the source
value as an own property. -/
def extendOnProto (dst : ProtoObj) (src : List (String × JVal)) : ProtoObj :=
  src.foldl (fun d pv =>
    if pv.2 ≠ JVal.undef ∧ pv.2 ≠ lookupProto d pv.1 then
      ⟨setBag d.own pv.1 pv.2, d.chain⟩
    else d) dst

/-- Constructor function as inherit sees it: its own enumerable static
members, the own enumerable members of its prototype object, and an identity
for the function itself.  A default prototype object's constructor property
is non-enumerable, so it is not part of protoOwn. -/
structure JSCtor where
  statics : JVal
  protoOwn : List (String × JVal)
  id : Nat

/-- Child constructor after inherit returns: statics merged from the parent,
and the rewired prototype object. -/
structure InheritedChild where
  statics : JVal
  proto : ProtoObj
deriving DecidableEq

/-- inherit (oo.js lines 163-195): copy the parent's static members onto the
child with deepExtend or extend, both called without options (lines 165-174);
build new ctor, an object with own property constructor = child whose
prototype is parent.prototype (lines 177-180); set child.prototype to
extend(new ctor, child.prototype, overwrite:true) (line 191).  The
child.__super__ = parent bookkeeping write (line 194) stores a function
reference and is not part of the returned model. -/
def inherit (child parent : JSCtor) (options : Options) : InheritedChild :=
  let statics :=
    if options.deepExtend then deepResult (deepExtendTop child.statics parent.statics {})
    else extend child.statics parent.statics {}
  let newCtorObj : ProtoObj := ⟨[("constructor", JVal.fn child.id)], parent.protoOwn⟩
  ⟨statics, extendOnProto newCtorObj child.protoOwn⟩

theorem bagFind_setBag_self (b : List (String × JVal)) (k : String) (v : JVal) :
    bagFind (setBag b k v) k = some v := by
  induction b with
  | nil => simp [setBag, bagFind]
  | cons pw r ih =>
      obtain ⟨p, w⟩ := pw
      by_cases h : p = k
      · simp [setBag, h, bagFind]
      · simp [setBag, h, bagFind, ih]

theorem bagFind_setBag_ne (b : List (String × JVal)) (p k : String) (v : JVal)
    (h : p ≠ k) : bagFind (setBag b p v) k = bagFind b k := by
  induction b with
  | nil => simp [setBag, bagFind, h]
  | cons qw r ih =>
      obtain ⟨q, w⟩ := qw
      by_cases hq : q = p
      · subst hq
        simp [setBag, bagFind, h]
      · simp [setBag, hq, bagFind, ih]

theorem getBag_setBag_self (b : List (String × JVal)) (k : String) (v : JVal) :
    getBag (setBag b k v) k = v := by
  simp [getBag, bagFind_setBag_self]

theorem getBag_setBag_ne (b : List (String × JVal)) (p k : String) (v : JVal)
    (h : p ≠ k) : getBag (setBag b p v) k = getBag b k := by
  simp [getBag, bagFind_setBag_ne b p k v h]

theorem bagFind_eq_none_iff (b : List (String × JVal)) (k : String) :
    bagFind b k = none ↔ k ∉ b.map Prod.fst := by
  induction b with
  | nil => simp [bagFind]
  | cons pw r ih =>
      obtain ⟨p, w⟩ := pw
      by_cases h : p = k
      · simp [bagFind, h]
      · simp [bagFind, h, ih, Ne.symm h]

theorem foldl_fixed {α β : Type} (f : β → α → β) (s : β) :
    ∀ l : List α, (∀ a ∈ l, f s a = s) → l.foldl f s = s
  | [], _ => rfl
  | a :: l, h => by
      rw [List.foldl_cons, h a (by simp),
        foldl_fixed f s l (fun b hb => h b (by simp [hb]))]

theorem map_congr_mem {α β : Type} (f g : α → β) :
    ∀ l : List α, (∀ a ∈ l, f a = g a) → l.map f = l.map g
  | [], _ => rfl
  | a :: l, h => by
      rw [List.map_cons, List.map_cons, h a (by simp),
        map_congr_mem f g l (fun b hb => h b (by simp [hb]))]

theorem foldl_congr_mem {α β : Type} (f g : β → α → β) :
    ∀ (l : List α) (s : β), (∀ s2 a, a ∈ l → f s2 a = g s2 a) → l.foldl f s = l.foldl g s
  | [], _, _ => rfl
  | a :: l, s, h => by
      rw [List.foldl_cons, List.foldl_cons, h s a (by simp)]
      exact foldl_congr_mem f g l (g s a) (fun s2 b hb => h s2 b (by simp [hb]))

theorem extendStep_skip (options : Options) (s : MState) (pv : String × JVal)
    (h : pv.2 = JVal.undef ∨ pv.2 = getProp s.child pv.1) :
    extendStep options s pv = s := by
  unfold extendStep
  rw [if_neg]
  push_neg
  intro h1
  rcases h with h | h
  · exact absurd h h1
  · exact h

theorem deepStep_skip (rec : JVal → JVal → Options → MState) (options : Options)
    (s : MState) (pv : String × JVal)
    (h : pv.2 = JVal.undef ∨ pv.2 = getProp s.child pv.1) :
    deepStep rec options s pv = s := by
  unfold deepStep
  rw [if_neg]
  push_neg
  intro h1
  rcases h with h | h
  · exact absurd h h1
  · exact h

theorem extendStep_child_of_cow (options : Options) (s : MState) (pv : String × JVal)
    (h : options.copyOnWrite = true) : (extendStep options s pv).child = s.child := by
  unfold extendStep
  by_cases hg : pv.2 ≠ JVal.undef ∧ pv.2 ≠ getProp s.child pv.1
  · rw [if_pos hg, if_pos h]
  · rw [if_neg hg]

theorem extendFold_child_of_cow (options : Options) (h : options.copyOnWrite = true) :
    ∀ (l : List (String × JVal)) (s : MState), (l.foldl (extendStep options) s).child = s.child
  | [], s => rfl
  | a :: l, s => by
      rw [List.foldl_cons, extendFold_child_of_cow options h l (extendStep options s a),
        extendStep_child_of_cow options s a h]

theorem extendFold_some_of_cow (options : Options) (h : options.copyOnWrite = true) :
    ∀ (l : List (String × JVal)) (child : JVal) (cc : JVal),
      ((l.foldl (extendStep options) ⟨child, some cc⟩).child_copy).isSome = true
  | [], _, _ => rfl
  | a :: l, child, cc => by
      rw [List.foldl_cons]
      by_cases hs : a.2 = JVal.undef ∨ a.2 = getProp child a.1
      · rw [extendStep_skip options ⟨child, some cc⟩ a hs]
        exact extendFold_some_of_cow options h l child cc
      · unfold extendStep
        rw [if_pos (by push_neg at hs; exact hs), if_pos h]
        exact extendFold_some_of_cow options h l child _

theorem extendFold_some_of_trigger (options : Options) (h : options.copyOnWrite = true) :
    ∀ (l : List (String × JVal)) (child : JVal),
      (∃ pv ∈ l, pv.2 ≠ JVal.undef ∧ pv.2 ≠ getProp child pv.1) →
      ((l.foldl (extendStep options) ⟨child, none⟩).child_copy).isSome = true
  | [], _, hex => by simp at hex
  | a :: l, child, hex => by
      rw [List.foldl_cons]
      by_cases hs : a.2 = JVal.undef ∨ a.2 = getProp child a.1
      · rw [extendStep_skip options ⟨child, none⟩ a hs]
        rcases hex with ⟨pv, hmem, hpv⟩
        rcases List.mem_cons.mp hmem with rfl | hmem
        · rcases hs with h1 | h1
          · exact absurd h1 hpv.1
          · exact absurd h1 hpv.2
        · exact extendFold_some_of_trigger options h l child ⟨pv, hmem, hpv⟩
      · unfold extendStep
        rw [if_pos (by push_neg at hs; exact hs), if_pos h]
        exact extendFold_some_of_cow options h l child _

theorem extendNoCow_nil (child : JVal) (ow : Bool) : extendNoCow child [] ow = child := rfl

theorem extendNoCow_cons (child : JVal) (a : String × JVal) (l : List (String × JVal))
    (ow : Bool) :
    extendNoCow child (a :: l) ow =
    extendNoCow
      (if a.2 ≠ JVal.undef ∧ a.2 ≠ getProp child a.1 then
        setProp child a.1
          (if ow = false ∧ getProp child a.1 ≠ JVal.undef then getProp child a.1 else a.2)
      else child) l ow := by
  unfold extendNoCow
  rw [List.foldl_cons]

theorem extendFold_nocow (options : Options) (h : options.copyOnWrite = false) :
    ∀ (l : List (String × JVal)) (child : JVal),
      l.foldl (extendStep options) ⟨child, none⟩ =
      ⟨extendNoCow child l options.overwrite, none⟩
  | [], child => rfl
  | a :: l, child => by
      rw [List.foldl_cons, extendNoCow_cons]
      by_cases hg : a.2 ≠ JVal.undef ∧ a.2 ≠ getProp child a.1
      · rw [if_pos hg]
        unfold extendStep
        rw [if_pos hg, if_neg (by simp [h])]
        exact extendFold_nocow options h l _
      · rw [if_neg hg,
          extendStep_skip options ⟨child, none⟩ a ((not_and_or.mp hg).imp not_not.mp not_not.mp)]
        exact extendFold_nocow options h l child

theorem extendRun_nocow (child parent : JVal) (options : Options)
    (h : options.copyOnWrite = false) :
    extendRun child parent options =
    ⟨extendNoCow child (forInProps parent) options.overwrite, none⟩ :=
  extendFold_nocow options h (forInProps parent) child

theorem getProp_obj (c : List (String × JVal)) (k : String) :
    getProp (JVal.obj c) k = getBag c k := rfl

/-- Write policy of a shallow merge, per key, as the specification states
it: an absent or identical parent value leaves the child value; otherwise,
with overwrite off and a defined child value, the child value is kept, and
in every other case the parent value is stored. -/
def writePolicySpec (ow : Bool) (c l : List (String × JVal)) (k : String) : JVal :=
  match bagFind l k with
  | some v =>
      if v = JVal.undef ∨ v = getBag c k then getBag c k
      else if ow = false ∧ getBag c k ≠ JVal.undef then getBag c k else v
  | none => getBag c k

theorem writePolicySpec_of_some (ow : Bool) (c l : List (String × JVal)) (k : String)
    (v : JVal) (h : bagFind l k = some v) :
    writePolicySpec ow c l k =
    (if v = JVal.undef ∨ v = getBag c k then getBag c k
     else if ow = false ∧ getBag c k ≠ JVal.undef then getBag c k else v) := by
  simp [writePolicySpec, h]

theorem writePolicySpec_of_none (ow : Bool) (c l : List (String × JVal)) (k : String)
    (h : bagFind l k = none) : writePolicySpec ow c l k = getBag c k := by
  simp [writePolicySpec, h]

theorem writePolicySpec_setBag_ne (ow : Bool) (c l : List (String × JVal)) (k p : String)
    (v : JVal) (hk : p ≠ k) :
    writePolicySpec ow (setBag c p v) l k = writePolicySpec ow c l k := by
  unfold writePolicySpec
  cases hb : bagFind l k with
  | none => simp [getBag_setBag_ne c p k v hk]
  | some w => simp [getBag_setBag_ne c p k v hk]

theorem writePolicySpec_find_congr (ow : Bool) (c l1 l2 : List (String × JVal)) (k : String)
    (h : bagFind l1 k = bagFind l2 k) :
    writePolicySpec ow c l1 k = writePolicySpec ow c l2 k := by
  unfold writePolicySpec
  rw [h]

theorem extendNoCow_cons2 (child : JVal) (p : String) (w : JVal)
    (l : List (String × JVal)) (ow : Bool) :
    extendNoCow child ((p, w) :: l) ow =
    extendNoCow
      (if w ≠ JVal.undef ∧ w ≠ getProp child p then
        setProp child p
          (if ow = false ∧ getProp child p ≠ JVal.undef then getProp child p else w)
      else child) l ow := by
  rw [extendNoCow_cons]

theorem extendNoCow_getBag (ow : Bool) :
    ∀ (l c : List (String × JVal)) (k : String), (l.map Prod.fst).Nodup →
      getProp (extendNoCow (JVal.obj c) l ow) k = writePolicySpec ow c l k
  | [], c, k, _ => by simp [extendNoCow, writePolicySpec, bagFind, getProp_obj]
  | (p, w) :: l, c, k, hnd => by
      have hnd2 : (p :: l.map Prod.fst).Nodup := by simpa using hnd
      obtain ⟨hp, hnd'⟩ := List.nodup_cons.mp hnd2
      rw [extendNoCow_cons2]
      by_cases hg : w ≠ JVal.undef ∧ w ≠ getProp (JVal.obj c) p
      · rw [if_pos hg]
        rw [show setProp (JVal.obj c) p
              (if ow = false ∧ getProp (JVal.obj c) p ≠ JVal.undef then getProp (JVal.obj c) p
               else w) =
            JVal.obj (setBag c p
              (if ow = false ∧ getBag c p ≠ JVal.undef then getBag c p else w)) from rfl]
        rw [extendNoCow_getBag ow l _ k hnd']
        rw [getProp_obj] at hg
        by_cases hk : p = k
        · subst hk
          have hnone : bagFind l p = none := (bagFind_eq_none_iff l p).mpr hp
          rw [writePolicySpec_of_none ow _ l p hnone, getBag_setBag_self,
            writePolicySpec_of_some ow c ((p, w) :: l) p w (by simp [bagFind]),
            if_neg (not_or.mpr hg)]
        · rw [writePolicySpec_setBag_ne ow c l k p _ hk]
          exact (writePolicySpec_find_congr ow c ((p, w) :: l) l k
            (by simp [bagFind, hk])).symm
      · rw [if_neg hg]
        rw [extendNoCow_getBag ow l c k hnd']
        rw [getProp_obj] at hg
        have hw : w = JVal.undef ∨ w = getBag c p :=
          (not_and_or.mp hg).imp not_not.mp not_not.mp
        by_cases hk : p = k
        · subst hk
          have hnone : bagFind l p = none := (bagFind_eq_none_iff l p).mpr hp
          rw [writePolicySpec_of_none ow c l p hnone,
            writePolicySpec_of_some ow c ((p, w) :: l) p w (by simp [bagFind]),
            if_pos hw]
        · exact (writePolicySpec_find_congr ow c ((p, w) :: l) l k
            (by simp [bagFind, hk])).symm

theorem depthProps_bound :
    ∀ (props : List (String × JVal)) (pv : String × JVal), pv ∈ props →
      depthJ pv.2 ≤ depthProps props
  | (q, u) :: r, pv, h => by
      rcases List.mem_cons.mp h with rfl | h
      · exact le_max_of_le_left (le_refl _) |>.trans (by rw [depthProps])
      · exact le_trans (depthProps_bound r pv h) (by rw [depthProps]; exact le_max_right _ _)

theorem depthElems_bound :
    ∀ (es : List JVal) (e : JVal), e ∈ es → depthJ e ≤ depthElems es
  | u :: r, e, h => by
      rcases List.mem_cons.mp h with rfl | h
      · rw [depthElems]; exact le_max_left _ _
      · exact le_trans (depthElems_bound r e h) (by rw [depthElems]; exact le_max_right _ _)

theorem forInIdx_mem :
    ∀ (i : Nat) (es : List JVal) (pv : String × JVal), pv ∈ forInIdx i es → pv.2 ∈ es
  | i, e :: es, pv, h => by
      rcases List.mem_cons.mp h with rfl | h
      · exact List.mem_cons_self _ _
      · exact List.mem_cons_of_mem _ (forInIdx_mem (i + 1) es pv h)

theorem forInChars_shape :
    ∀ (i : Nat) (cs : List Char) (pv : String × JVal), pv ∈ forInChars i cs →
      ∃ c : Char, pv.2 = JVal.str c.toString
  | i, c :: cs, pv, h => by
      rcases List.mem_cons.mp h with rfl | h
      · exact ⟨c, rfl⟩
      · exact forInChars_shape (i + 1) cs pv h

theorem eq_obj_of_typeof (v : JVal) (h1 : typeofStr v = "object") (h2 : v ≠ JVal.jnull)
    (h3 : isArrayV v = false) : ∃ props, v = JVal.obj props := by
  cases v with
  | obj props => exact ⟨props, rfl⟩
  | jnull => exact absurd rfl h2
  | arr es => exact absurd h3 (by simp [isArrayV])
  | undef => exact absurd h1 (by simp [typeofStr])
  | bool b => exact absurd h1 (by simp [typeofStr])
  | num n => exact absurd h1 (by simp [typeofStr])
  | str s => exact absurd h1 (by simp [typeofStr])
  | fn id => exact absurd h1 (by simp [typeofStr])

theorem eq_arr_of_isArray (v : JVal) (h : isArrayV v = true) : ∃ es, v = JVal.arr es := by
  cases v with
  | arr es => exact ⟨es, rfl⟩
  | undef => exact absurd h (by decide)
  | jnull => exact absurd h (by decide)
  | bool b => exact absurd h (by simp [isArrayV])
  | num n => exact absurd h (by simp [isArrayV])
  | str s => exact absurd h (by simp [isArrayV])
  | obj props => exact absurd h (by simp [isArrayV])
  | fn id => exact absurd h (by simp [isArrayV])

theorem deepWrite_congr (rec1 rec2 : JVal → JVal → Options → MState) (options : Options)
    (dst : JVal) (pv : String × JVal)
    (hobj : ∀ props, pv.2 = JVal.obj props → ∀ d, rec1 d pv.2 options = rec2 d pv.2 options)
    (harr : ∀ es, pv.2 = JVal.arr es →
      ∀ e ∈ es, rec1 (JVal.obj []) e options = rec2 (JVal.obj []) e options) :
    deepWrite rec1 options dst pv = deepWrite rec2 options dst pv := by
  unfold deepWrite
  by_cases hb1 : typeofStr pv.2 = "object" ∧ pv.2 ≠ JVal.jnull ∧ isArrayV pv.2 = false
      ∧ typeofStr pv.2 = typeofStr (getProp dst pv.1)
  · rw [if_pos hb1, if_pos hb1]
    obtain ⟨props, hv⟩ := eq_obj_of_typeof pv.2 hb1.1 hb1.2.1 hb1.2.2.1
    simp only [hobj props hv]
  · rw [if_neg hb1, if_neg hb1]
    by_cases hb2 : typeofStr pv.2 = "object" ∧ pv.2 ≠ JVal.jnull ∧ isArrayV pv.2 = true
    · rw [if_pos hb2, if_pos hb2]
      obtain ⟨es, hv⟩ := eq_arr_of_isArray pv.2 hb2.2.2
      have hmap :
          (elemsOf pv.2).map (fun e => deepResult (rec1 (JVal.obj []) e options)) =
          (elemsOf pv.2).map (fun e => deepResult (rec2 (JVal.obj []) e options)) := by
        apply map_congr_mem
        intro e he
        rw [harr es hv e (by rw [hv] at he; exact he)]
      simp only [hmap]
    · rw [if_neg hb2, if_neg hb2]

theorem deepStep_congr (rec1 rec2 : JVal → JVal → Options → MState) (options : Options)
    (s : MState) (pv : String × JVal)
    (hobj : ∀ props, pv.2 = JVal.obj props → ∀ d, rec1 d pv.2 options = rec2 d pv.2 options)
    (harr : ∀ es, pv.2 = JVal.arr es →
      ∀ e ∈ es, rec1 (JVal.obj []) e options = rec2 (JVal.obj []) e options) :
    deepStep rec1 options s pv = deepStep rec2 options s pv := by
  unfold deepStep
  by_cases hg : pv.2 ≠ JVal.undef ∧ pv.2 ≠ getProp s.child pv.1
  · rw [if_pos hg, if_pos hg, deepWrite_congr rec1 rec2 options _ pv hobj harr,
      deepWrite_congr rec1 rec2 options _ pv hobj harr]
  · rw [if_neg hg, if_neg hg]

theorem deepExtendF_depth0 (child parent : JVal) (options : Options)
    (h : depthJ parent = 0) :
    ∀ f : Nat, deepExtendF f child parent options = ⟨child, none⟩ := by
  intro f
  cases f with
  | zero => rfl
  | succ f =>
      cases parent with
      | obj props => rw [depthJ] at h; exact absurd h (by simp)
      | arr es => rw [depthJ] at h; exact absurd h (by simp)
      | str s => exact absurd h (by rw [depthJ]; simp)
      | undef => rfl
      | jnull => rfl
      | bool b => rfl
      | num n => rfl
      | fn id => rfl

theorem forInProps_depth (parent : JVal) (pv : String × JVal)
    (hpv : pv ∈ forInProps parent) :
    depthJ pv.2 + 1 ≤ depthJ parent ∨ ∃ c : Char, pv.2 = JVal.str c.toString := by
  cases parent with
  | obj props =>
      left
      rw [depthJ]
      exact Nat.succ_le_succ (depthProps_bound props pv hpv)
  | arr es =>
      left
      rw [depthJ]
      exact Nat.succ_le_succ (depthElems_bound es pv.2 (forInIdx_mem 0 es pv hpv))
  | str s => exact Or.inr (forInChars_shape 0 s.data pv hpv)
  | undef => exact absurd hpv (by simp [forInProps])
  | jnull => exact absurd hpv (by simp [forInProps])
  | bool b => exact absurd hpv (by simp [forInProps])
  | num n => exact absurd hpv (by simp [forInProps])
  | fn id => exact absurd hpv (by simp [forInProps])

theorem deepExtendF_fuel_irrelevant :
    ∀ (n f g : Nat) (child parent : JVal) (options : Options),
      f ≤ n → g ≤ n → depthJ parent ≤ f → depthJ parent ≤ g →
      deepExtendF f child parent options = deepExtendF g child parent options := by
  intro n
  induction n with
  | zero =>
      intro f g child parent options hf hg _ _
      rw [Nat.le_zero.mp hf, Nat.le_zero.mp hg]
  | succ n ih =>
      intro f g child parent options hf hg hdf hdg
      by_cases hd : depthJ parent = 0
      · rw [deepExtendF_depth0 child parent options hd f,
          deepExtendF_depth0 child parent options hd g]
      · obtain ⟨f', rfl⟩ : ∃ f2, f = f2 + 1 := ⟨f - 1, by omega⟩
        obtain ⟨g', rfl⟩ : ∃ g2, g = g2 + 1 := ⟨g - 1, by omega⟩
        show (forInProps parent).foldl (deepStep (deepExtendF f') options) ⟨child, none⟩ =
          (forInProps parent).foldl (deepStep (deepExtendF g') options) ⟨child, none⟩
        apply foldl_congr_mem
        intro s pv hpv
        rcases forInProps_depth parent pv hpv with hb | ⟨c, hc⟩
        · apply deepStep_congr
          · intro props hv d
            exact ih f' g' d pv.2 options (by omega) (by omega) (by omega) (by omega)
          · intro es1 hv e he
            have h1 : depthJ e ≤ depthElems es1 := depthElems_bound es1 e he
            have h2 : depthJ pv.2 = depthElems es1 + 1 := by rw [hv, depthJ]
            exact ih f' g' (JVal.obj []) e options (by omega) (by omega) (by omega) (by omega)
        · apply deepStep_congr
          · intro props hv d
            rw [hc] at hv
            exact absurd hv (by simp)
          · intro es1 hv e he
            rw [hc] at hv
            exact absurd hv (by simp)

theorem deepExtendF_adequate (f : Nat) (child parent : JVal) (options : Options)
    (h : depthJ parent ≤ f) :
    deepExtendF f child parent options = deepExtendTop child parent options := by
  unfold deepExtendTop
  exact deepExtendF_fuel_irrelevant (max f (depthJ parent + 1)) f (depthJ parent + 1)
    child parent options (le_max_left _ _) (le_max_right _ _) h (Nat.le_succ _)

theorem extendRun_skip_all (child parent : JVal) (options : Options)
    (h : ∀ pv ∈ forInProps parent, pv.2 = JVal.undef ∨ pv.2 = getProp child pv.1) :
    extendRun child parent options = ⟨child, none⟩ := by
  unfold extendRun
  exact foldl_fixed _ _ _ (fun pv hpv => extendStep_skip options ⟨child, none⟩ pv (h pv hpv))

theorem deepExtendTop_skip_all (child parent : JVal) (options : Options)
    (h : ∀ pv ∈ forInProps parent, pv.2 = JVal.undef ∨ pv.2 = getProp child pv.1) :
    deepExtendTop child parent options = ⟨child, none⟩ := by
  show (forInProps parent).foldl (deepStep (deepExtendF (depthJ parent)) options)
    ⟨child, none⟩ = ⟨child, none⟩
  exact foldl_fixed _ _ _ (fun pv hpv => deepStep_skip _ options ⟨child, none⟩ pv (h pv hpv))

/-- C5: if every parent key is absent (undefined-valued) or holds a value
identical to the child's value at that key, then both ShallowMerge and
DeepMerge are identities: the loop state never changes, no copy-on-write
clone is created (child_copy stays none even when copyOnWrite is true), and
the returned reference is the original child. -/
theorem merge_identity_noop (child parent : JVal) (options : Options)
    (h : ∀ pv ∈ forInProps parent, pv.2 = JVal.undef ∨ pv.2 = getProp child pv.1) :
    extendRun child parent options = ⟨child, none⟩ ∧
    extend child parent options = child ∧
    deepExtendTop child parent options = ⟨child, none⟩ ∧
    deepResult (deepExtendTop child parent options) = child := by
  have h1 := extendRun_skip_all child parent options h
  have h2 := deepExtendTop_skip_all child parent options h
  exact ⟨h1, by simp [extend, h1], h2, by simp [deepResult, h2]⟩

theorem merge_identity_noop_witness :
    extend (JVal.obj [("a", JVal.num 1)])
      (JVal.obj [("a", JVal.num 1), ("b", JVal.undef)]) ⟨false, true, false⟩ =
      JVal.obj [("a", JVal.num 1)] ∧
    deepResult (deepExtendTop (JVal.obj [("a", JVal.num 1)])
      (JVal.obj [("a", JVal.num 1), ("b", JVal.undef)]) ⟨false, true, false⟩) =
      JVal.obj [("a", JVal.num 1)] :=
  ⟨(merge_identity_noop _ _ _ (by decide)).2.1,
   (merge_identity_noop _ _ _ (by decide)).2.2.2⟩

/-- C9: a null or undefined parent enumerates no properties, so ShallowMerge
is a total no-op: it raises nothing, never writes, never clones, and returns
the original child. -/
theorem extend_null_parent_noop (child : JVal) (options : Options) :
    extendRun child JVal.jnull options = ⟨child, none⟩ ∧
    extend child JVal.jnull options = child ∧
    extendRun child JVal.undef options = ⟨child, none⟩ ∧
    extend child JVal.undef options = child :=
  ⟨rfl, rfl, rfl, rfl⟩

/-- C3: with copyOnWrite on and at least one parent key that triggers a
write (defined and not identical to the child's value), the merge leaves the
child state untouched, allocates the clone, and returns the clone rather
than the child. -/
theorem extend_copyOnWrite_isolation (child parent : JVal) (options : Options)
    (hcow : options.copyOnWrite = true)
    (htr : ∃ pv ∈ forInProps parent, pv.2 ≠ JVal.undef ∧ pv.2 ≠ getProp child pv.1) :
    (extendRun child parent options).child = child ∧
    (extendRun child parent options).child_copy = some (extend child parent options) := by
  have h1 : (extendRun child parent options).child = child :=
    extendFold_child_of_cow options hcow (forInProps parent) ⟨child, none⟩
  have h2 : ((extendRun child parent options).child_copy).isSome = true :=
    extendFold_some_of_trigger options hcow (forInProps parent) child htr
  refine ⟨h1, ?_⟩
  cases hc : (extendRun child parent options).child_copy with
  | none => rw [hc] at h2; simp at h2
  | some cc => simp [extend, hc]

theorem extend_copyOnWrite_isolation_witness :
    (extendRun (JVal.obj [("a", JVal.num 1)]) (JVal.obj [("b", JVal.num 2)])
      ⟨false, true, false⟩).child = JVal.obj [("a", JVal.num 1)] ∧
    (extendRun (JVal.obj [("a", JVal.num 1)]) (JVal.obj [("b", JVal.num 2)])
      ⟨false, true, false⟩).child_copy =
      some (extend (JVal.obj [("a", JVal.num 1)]) (JVal.obj [("b", JVal.num 2)])
        ⟨false, true, false⟩) ∧
    extend (JVal.obj [("a", JVal.num 1)]) (JVal.obj [("b", JVal.num 2)]) ⟨false, true, false⟩ =
      JVal.obj [("a", JVal.num 1), ("b", JVal.num 2)] ∧
    extend (JVal.obj [("a", JVal.num 1)]) (JVal.obj [("b", JVal.num 2)]) ⟨false, true, false⟩ ≠
      JVal.obj [("a", JVal.num 1)] :=
  ⟨(extend_copyOnWrite_isolation _ _ _ rfl (by decide)).1,
   (extend_copyOnWrite_isolation _ _ _ rfl (by decide)).2,
   by decide, by decide⟩

/-- C4: per key, ShallowMerge realises the write policy: an absent
(undefined) or identical parent value leaves the child value; otherwise,
if overwrite is false and the target has a defined value at the key, the
existing value is kept, and in every other case the parent value is
stored. -/
theorem extend_write_policy (c : List (String × JVal)) (parent : JVal) (options : Options)
    (hcow : options.copyOnWrite = false)
    (hnd : ((forInProps parent).map Prod.fst).Nodup) (k : String) :
    getProp (extend (JVal.obj c) parent options) k =
    writePolicySpec options.overwrite c (forInProps parent) k := by
  have he : extend (JVal.obj c) parent options =
      extendNoCow (JVal.obj c) (forInProps parent) options.overwrite := by
    simp [extend, extendRun_nocow _ _ _ hcow]
  rw [he]
  exact extendNoCow_getBag options.overwrite (forInProps parent) c k hnd

theorem extend_write_policy_witness :
    getProp (extend (JVal.obj [("a", JVal.num 1)])
      (JVal.obj [("a", JVal.num 2), ("b", JVal.num 3)]) ⟨false, false, false⟩) "a" =
      JVal.num 1 ∧
    extend (JVal.obj [("a", JVal.num 1)])
      (JVal.obj [("a", JVal.num 2), ("b", JVal.num 3)]) ⟨false, false, false⟩ =
      JVal.obj [("a", JVal.num 1), ("b", JVal.num 3)] ∧
    extend (JVal.obj [("a", JVal.num 1)])
      (JVal.obj [("a", JVal.num 2), ("b", JVal.num 3)]) ⟨true, false, false⟩ =
      JVal.obj [("a", JVal.num 2), ("b", JVal.num 3)] := by
  refine ⟨?_, by decide, by decide⟩
  rw [extend_write_policy [("a", JVal.num 1)]
    (JVal.obj [("a", JVal.num 2), ("b", JVal.num 3)]) ⟨false, false, false⟩ rfl (by decide) "a"]
  decide

/-- C6: the code of traverse initialises the missing index argument to
path.length, so the termination test path.length === index succeeds
immediately and every two-argument call returns the root object — including
on a non-empty path that the claim (and the function's own documentation)
says should be walked: the element 1 at path a.b is never reached and the
null-on-scalar case is never reached either.  Only the empty-path clause of
the claim holds. -/
theorem traverse_always_returns_root :
    traverse (JVal.obj [("a", JVal.obj [("b", JVal.num 1)])]) ["a", "b"] =
      JVal.obj [("a", JVal.obj [("b", JVal.num 1)])] ∧
    traverse (JVal.obj [("a", JVal.obj [("b", JVal.num 1)])]) ["a", "b"] ≠ JVal.num 1 ∧
    traverse (JVal.obj [("a", JVal.num 1)]) ["a", "b"] ≠ JVal.jnull ∧
    traverse (JVal.obj [("a", JVal.num 1)]) [] = JVal.obj [("a", JVal.num 1)] := by
  decide

/-- C7: every objectify call that reaches a slot assignment throws, because
the assignment reads the undeclared identifier parent_object (the declared
variable is spelled parrent_object); no slot is ever replaced by
new constructor(oldValue), for a single object and for an array of objects
with a non-empty constructor array alike. -/
theorem objectify_reference_error :
    objectify (JVal.obj [("a", JVal.num 1)]) ["a"] (JVal.fn 0) =
      Except.error "ReferenceError: parent_object is not defined" ∧
    objectify (JVal.arr [JVal.obj [("a", JVal.num 1)]]) ["a"] (JVal.arr [JVal.fn 0]) =
      Except.error "ReferenceError: parent_object is not defined" :=
  ⟨rfl, rfl⟩

/-- C10 counterexample: a string is not an object, yet deepExtend with the
string parent ab does not iterate zero keys and does not return the child
unchanged: for-in over a string enumerates its index properties, so the
characters are copied onto the child. -/
theorem deepExtend_string_parent_cex :
    deepResult (deepExtendTop (JVal.obj []) (JVal.str "ab") ⟨false, false, false⟩) =
      JVal.obj [("0", JVal.str "a"), ("1", JVal.str "b")] ∧
    deepResult (deepExtendTop (JVal.obj []) (JVal.str "ab") ⟨false, false, false⟩) ≠
      JVal.obj [] := by
  decide

/-- C10 amended: a number, boolean, null or undefined parent enumerates no
properties, so deepExtend iterates zero keys and returns the child unchanged
(a string parent instead enumerates its characters); consequently scalar
non-string array elements are appended as deepExtend of a fresh empty bag,
i.e. as empty objects whose values are lost — merging arr:[1,2] into arr:[]
yields arr = [{}, {}] — while string elements are appended as objects of
their characters. -/
theorem deepExtend_scalar_parent (child : JVal) (options : Options) :
    (∀ n : Int, deepExtendTop child (JVal.num n) options = ⟨child, none⟩) ∧
    (∀ b : Bool, deepExtendTop child (JVal.bool b) options = ⟨child, none⟩) ∧
    deepExtendTop child JVal.jnull options = ⟨child, none⟩ ∧
    deepExtendTop child JVal.undef options = ⟨child, none⟩ ∧
    deepResult (deepExtendTop (JVal.obj [("arr", JVal.arr [])])
      (JVal.obj [("arr", JVal.arr [JVal.num 1, JVal.num 2])]) ⟨false, false, false⟩) =
      JVal.obj [("arr", JVal.arr [JVal.obj [], JVal.obj []])] ∧
    deepResult (deepExtendTop (JVal.obj []) (JVal.str "ab") ⟨false, false, false⟩) =
      JVal.obj [("0", JVal.str "a"), ("1", JVal.str "b")] :=
  ⟨fun _ => rfl, fun _ => rfl, rfl, rfl, by decide, by decide⟩

/-- C1 counterexample: at child {} and parent with the nested object value
at key x, the claim prescribes creating a fresh instance of the same kind
and recursively merging parent.x into it, which drops the undefined-valued
property a; the code instead fails its typeof-match guard (typeof dst.x is
undefined, not object) and leaf-writes parent.x by reference, so the result
still carries the own property a.  The two outcomes differ. -/
theorem deepExtend_absent_key_cex :
    getProp (deepResult (deepExtendTop (JVal.obj [])
        (JVal.obj [("x", JVal.obj [("a", JVal.undef)])]) ⟨false, false, false⟩)) "x" =
      JVal.obj [("a", JVal.undef)] ∧
    deepResult (deepExtendTop (newInstance (JVal.obj [("a", JVal.undef)]))
        (JVal.obj [("a", JVal.undef)]) ⟨false, false, false⟩) = JVal.obj [] ∧
    JVal.obj [("a", JVal.undef)] ≠ (JVal.obj [] : JVal) := by
  decide

/-- C1 amended: for a parent holding a non-null non-array object at key k
(and an in-place merge), DeepMerge recurses only when the destination's
current value at k is itself of typeof object — a plain object, an array,
or null — creating the fresh new parent[k].constructor() instance only when
that value is falsy (null); when the child has no value at k, or a
non-object value, parent[k] is handled as a leaf write under the overwrite
policy, so an absent key receives the parent's nested object itself rather
than a recursive merge into a fresh instance. -/
theorem deepExtend_nested_object_key (c : List (String × JVal)) (k : String)
    (vp : List (String × JVal)) (options : Options)
    (hcow : options.copyOnWrite = false)
    (hne : JVal.obj vp ≠ getBag c k) :
    deepExtendTop (JVal.obj c) (JVal.obj [(k, JVal.obj vp)]) options =
    ⟨JVal.obj (setBag c k
      (if typeofStr (getBag c k) = "object" then
        deepResult (deepExtendTop
          (if truthy (getBag c k) then getBag c k else JVal.obj []) (JVal.obj vp) options)
      else if options.overwrite = false ∧ getBag c k ≠ JVal.undef then getBag c k
      else JVal.obj vp)), none⟩ := by
  have hD : depthJ (JVal.obj [(k, JVal.obj vp)]) = depthJ (JVal.obj vp) + 1 := by
    simp [depthJ, depthProps]
  unfold deepExtendTop
  rw [hD]
  show deepStep (deepExtendF (depthJ (JVal.obj vp) + 1)) options ⟨JVal.obj c, none⟩
    (k, JVal.obj vp) = _
  unfold deepStep
  rw [if_pos (⟨by simp, by simpa [getProp_obj] using hne⟩ :
    ((k, JVal.obj vp) : String × JVal).2 ≠ JVal.undef ∧
    ((k, JVal.obj vp) : String × JVal).2 ≠
      getProp (MState.mk (JVal.obj c) none).child ((k, JVal.obj vp) : String × JVal).1)]
  rw [if_neg (by simp [hcow])]
  congr 1
  unfold deepWrite
  dsimp only [getProp_obj]
  by_cases hto : typeofStr (getBag c k) = "object"
  · rw [if_pos ⟨rfl, by simp, rfl, hto.symm⟩, if_pos hto]
    rfl
  · rw [if_neg (fun h => hto h.2.2.2.symm), if_neg (by simp [isArrayV]), if_neg hto]
    rfl

theorem deepExtend_nested_object_key_witness :
    deepExtendTop (JVal.obj []) (JVal.obj [("x", JVal.obj [("a", JVal.num 1)])])
      ⟨false, false, false⟩ =
    ⟨JVal.obj [("x", JVal.obj [("a", JVal.num 1)])], none⟩ := by
  rw [deepExtend_nested_object_key [] "x" [("a", JVal.num 1)] ⟨false, false, false⟩ rfl
    (by decide)]
  decide

/-- C2: for a parent holding an array at key k whose value is not identical
to the child's, when the child already holds an array there, DeepMerge
appends — in order — a deep clone DeepMerge({}, e, policy) of every parent
element to the child's array; nothing is merged positionally and nothing is
deduplicated, so the array grows by the parent's length on every such
call. -/
theorem deepExtend_array_append (c : List (String × JVal)) (k : String)
    (ds es : List JVal) (options : Options)
    (hcow : options.copyOnWrite = false)
    (hck : getBag c k = JVal.arr ds)
    (hne : JVal.arr es ≠ getBag c k) :
    deepExtendTop (JVal.obj c) (JVal.obj [(k, JVal.arr es)]) options =
    ⟨JVal.obj (setBag c k (JVal.arr (ds ++
      es.map (fun e => deepResult (deepExtendTop (JVal.obj []) e options))))), none⟩ := by
  have hD : depthJ (JVal.obj [(k, JVal.arr es)]) = depthJ (JVal.arr es) + 1 := by
    simp [depthJ, depthProps]
  unfold deepExtendTop
  rw [hD]
  show deepStep (deepExtendF (depthJ (JVal.arr es) + 1)) options ⟨JVal.obj c, none⟩
    (k, JVal.arr es) = _
  unfold deepStep
  rw [if_pos (⟨by simp, by simpa [getProp_obj] using hne⟩ :
    ((k, JVal.arr es) : String × JVal).2 ≠ JVal.undef ∧
    ((k, JVal.arr es) : String × JVal).2 ≠
      getProp (MState.mk (JVal.obj c) none).child ((k, JVal.arr es) : String × JVal).1)]
  rw [if_neg (by simp [hcow])]
  congr 1
  unfold deepWrite
  dsimp only [getProp_obj, elemsOf]
  rw [if_neg (by simp [isArrayV])]
  rw [if_pos ⟨rfl, by simp, rfl⟩]
  rw [if_neg (by rw [hck]; simp [isArrayV])]
  rw [show getProp (JVal.obj c) k = JVal.arr ds from hck]
  have hmap : es.map (fun e =>
        deepResult (deepExtendF (depthJ (JVal.arr es) + 1) (JVal.obj []) e options)) =
      es.map (fun e => deepResult (deepExtendTop (JVal.obj []) e options)) := by
    apply map_congr_mem
    intro e he
    rw [deepExtendF_adequate (depthJ (JVal.arr es) + 1) (JVal.obj []) e options (by
      have h1 : depthJ e ≤ depthElems es := depthElems_bound es e he
      have h2 : depthJ (JVal.arr es) = depthElems es + 1 := by rw [depthJ]
      omega)]
  rw [hmap]
  rfl

theorem deepExtend_array_append_witness :
    deepResult (deepExtendTop (JVal.obj [("arr", JVal.arr [JVal.num 1])])
      (JVal.obj [("arr", JVal.arr [JVal.obj [("v", JVal.num 2)]])]) ⟨false, false, false⟩) =
      JVal.obj [("arr", JVal.arr [JVal.num 1, JVal.obj [("v", JVal.num 2)]])] ∧
    deepResult (deepExtendTop
      (JVal.obj [("arr", JVal.arr [JVal.num 1, JVal.obj [("v", JVal.num 2)]])])
      (JVal.obj [("arr", JVal.arr [JVal.obj [("v", JVal.num 2)]])]) ⟨false, false, false⟩) =
      JVal.obj [("arr", JVal.arr
        [JVal.num 1, JVal.obj [("v", JVal.num 2)], JVal.obj [("v", JVal.num 2)]])] := by
  constructor
  · rw [deepExtend_array_append [("arr", JVal.arr [JVal.num 1])] "arr" [JVal.num 1]
      [JVal.obj [("v", JVal.num 2)]] ⟨false, false, false⟩ rfl (by decide) (by decide)]
    decide
  · rw [deepExtend_array_append
      [("arr", JVal.arr [JVal.num 1, JVal.obj [("v", JVal.num 2)]])] "arr"
      [JVal.num 1, JVal.obj [("v", JVal.num 2)]]
      [JVal.obj [("v", JVal.num 2)]] ⟨false, false, false⟩ rfl (by decide) (by decide)]
    decide

theorem extendOnProto_cons (d : ProtoObj) (a : String × JVal) (l : List (String × JVal)) :
    extendOnProto d (a :: l) =
    extendOnProto
      (if a.2 ≠ JVal.undef ∧ a.2 ≠ lookupProto d a.1 then ⟨setBag d.own a.1 a.2, d.chain⟩
       else d) l := by
  unfold extendOnProto
  rw [List.foldl_cons]

theorem extendOnProto_chain : ∀ (l : List (String × JVal)) (d : ProtoObj),
    (extendOnProto d l).chain = d.chain
  | [], _ => rfl
  | a :: l, d => by
      rw [extendOnProto_cons]
      by_cases hg : a.2 ≠ JVal.undef ∧ a.2 ≠ lookupProto d a.1
      · rw [if_pos hg, extendOnProto_chain l _]
      · rw [if_neg hg, extendOnProto_chain l d]

theorem extendOnProto_own_not_mem : ∀ (l : List (String × JVal)) (d : ProtoObj) (m : String),
    m ∉ l.map Prod.fst → bagFind (extendOnProto d l).own m = bagFind d.own m
  | [], _, _, _ => rfl
  | (p, w) :: l, d, m, hm => by
      have hp : p ≠ m := fun h => hm (by simp [h])
      have hm2 : m ∉ l.map Prod.fst := fun h => hm (by simp [h])
      rw [extendOnProto_cons]
      by_cases hg : ((p, w) : String × JVal).2 ≠ JVal.undef ∧
          ((p, w) : String × JVal).2 ≠ lookupProto d ((p, w) : String × JVal).1
      · rw [if_pos hg, extendOnProto_own_not_mem l _ m hm2]
        exact bagFind_setBag_ne d.own p m w hp
      · rw [if_neg hg, extendOnProto_own_not_mem l d m hm2]

theorem extendOnProto_lookup_found : ∀ (l : List (String × JVal)) (d : ProtoObj)
    (m : String) (v : JVal), (l.map Prod.fst).Nodup → bagFind l m = some v →
    v ≠ JVal.undef → bagFind d.own m = none →
    lookupProto (extendOnProto d l) m = v
  | [], _, _, _, _, hf, _, _ => by simp [bagFind] at hf
  | (p, w) :: l, d, m, v, hnd, hf, hv, hdm => by
      have hnd2 : (p :: l.map Prod.fst).Nodup := by simpa using hnd
      obtain ⟨hp, hnd'⟩ := List.nodup_cons.mp hnd2
      rw [extendOnProto_cons]
      by_cases hm : p = m
      · subst hm
        have hwv : w = v := by simpa [bagFind] using hf
        subst hwv
        by_cases hg : ((p, w) : String × JVal).2 ≠ JVal.undef ∧
            ((p, w) : String × JVal).2 ≠ lookupProto d ((p, w) : String × JVal).1
        · rw [if_pos hg]
          have hfound : bagFind (extendOnProto
              (⟨setBag d.own p w, d.chain⟩ : ProtoObj) l).own p = some w := by
            rw [extendOnProto_own_not_mem l _ p hp]
            exact bagFind_setBag_self d.own p w
          unfold lookupProto
          rw [hfound]
        · rw [if_neg hg]
          have hw : w = lookupProto d p := by
            rcases not_and_or.mp hg with h | h
            · exact absurd (by simpa using not_not.mp h) hv
            · simpa using not_not.mp h
          have hown : bagFind (extendOnProto d l).own p = none := by
            rw [extendOnProto_own_not_mem l d p hp]
            exact hdm
          unfold lookupProto
          rw [hown, extendOnProto_chain l d, hw]
          unfold lookupProto
          rw [hdm]
      · have hf2 : bagFind l m = some v := by
          have : (if p = m then some w else bagFind l m) = some v := by
            simpa [bagFind] using hf
          rwa [if_neg hm] at this
        by_cases hg : ((p, w) : String × JVal).2 ≠ JVal.undef ∧
            ((p, w) : String × JVal).2 ≠ lookupProto d ((p, w) : String × JVal).1
        · rw [if_pos hg]
          exact extendOnProto_lookup_found l _ m v hnd' hf2 hv (by
            show bagFind (setBag d.own p w) m = none
            rw [bagFind_setBag_ne d.own p m w hm]
            exact hdm)
        · rw [if_neg hg]
          exact extendOnProto_lookup_found l d m v hnd' hf2 hv hdm

/-- C8: after inherit rewires the child's prototype, method lookup on an
instance of the child — own lookup on the fresh prototype object, falling
back to the parent's prototype it delegates to — resolves any method that the
child's pre-existing prototype defines to the child's version (the merge at
overwrite:true copies it as an own property, or skips it exactly when the
delegated value is already identical), and resolves a name the child's
prototype does not define to the parent's prototype value, so a method
defined only on the parent's prototype is invocable on the child. -/
theorem inherit_method_resolution (child parent : JSCtor) (options : Options)
    (m : String) (v : JVal)
    (hnd : (child.protoOwn.map Prod.fst).Nodup) (hm : m ≠ "constructor") :
    (bagFind child.protoOwn m = some v → v ≠ JVal.undef →
      lookupProto (inherit child parent options).proto m = v) ∧
    (bagFind child.protoOwn m = none →
      lookupProto (inherit child parent options).proto m =
        (bagFind parent.protoOwn m).getD JVal.undef) := by
  constructor
  · intro hf hv
    show lookupProto (extendOnProto
      (⟨[("constructor", JVal.fn child.id)], parent.protoOwn⟩ : ProtoObj)
      child.protoOwn) m = v
    exact extendOnProto_lookup_found child.protoOwn _ m v hnd hf hv
      (by simp [bagFind, Ne.symm hm])
  · intro hf
    show lookupProto (extendOnProto
      (⟨[("constructor", JVal.fn child.id)], parent.protoOwn⟩ : ProtoObj)
      child.protoOwn) m = _
    have hmem : m ∉ child.protoOwn.map Prod.fst := (bagFind_eq_none_iff _ m).mp hf
    unfold lookupProto
    rw [extendOnProto_own_not_mem child.protoOwn _ m hmem]
    rw [show bagFind
        ((⟨[("constructor", JVal.fn child.id)], parent.protoOwn⟩ : ProtoObj)).own m = none
      from by simp [bagFind, Ne.symm hm]]
    rw [extendOnProto_chain child.protoOwn _]

theorem inherit_method_resolution_witness :
    lookupProto (inherit ⟨JVal.obj [], [("foo", JVal.fn 1)], 0⟩
      ⟨JVal.obj [], [("foo", JVal.fn 2), ("bar", JVal.fn 3)], 9⟩
      ⟨false, false, false⟩).proto "foo" = JVal.fn 1 ∧
    lookupProto (inherit ⟨JVal.obj [], [("foo", JVal.fn 1)], 0⟩
      ⟨JVal.obj [], [("foo", JVal.fn 2), ("bar", JVal.fn 3)], 9⟩
      ⟨false, false, false⟩).proto "bar" = JVal.fn 3 :=
  ⟨(inherit_method_resolution ⟨JVal.obj [], [("foo", JVal.fn 1)], 0⟩
      ⟨JVal.obj [], [("foo", JVal.fn 2), ("bar", JVal.fn 3)], 9⟩
      ⟨false, false, false⟩ "foo" (JVal.fn 1) (by decide) (by decide)).1 rfl (by decide),
   (inherit_method_resolution ⟨JVal.obj [], [("foo", JVal.fn 1)], 0⟩
      ⟨JVal.obj [], [("foo", JVal.fn 2), ("bar", JVal.fn 3)], 9⟩
      ⟨false, false, false⟩ "bar" (JVal.fn 1) (by decide) (by decide)).2 rfl⟩
